import Mathlib

/-!
Verification development for the tree-cli directory census tool.

The filesystem is modelled as an inductive tree (`FSEntry`): a file carries its
name and size, a directory carries its name, a readability flag (`fs::read_dir`
succeeding or failing on it) and its entries.  Paths are represented by the
entry name alone: every place the Rust code calls `path.file_name()` the model
uses the stored name.  Per-entry metadata reads are assumed to succeed (a
failed metadata read is a silent skip in the code and no claim depends on it).

Recursive functions over these nested-inductive trees are written with an
explicit fuel parameter (structural recursion on the fuel) plus a wrapper that
supplies the structural size of the argument as fuel, which is always
sufficient; this keeps every definition kernel-computable.  The zero-fuel
branches are unreachable from the wrappers.
-/

set_option maxHeartbeats 1600000

/-- An entry of the modelled filesystem: a file with a size, or a directory
with a readability flag and child entries.  Mirrors what the walk in
`list_files.rs` can observe. -/
inductive FSEntry : Type where
  | file (name : String) (size : Nat)
  | dir (name : String) (readable : Bool) (entries : List FSEntry)

/-- The name of an entry, i.e. what `path.file_name()` yields in the code. -/
def FSEntry.name : FSEntry → String
  | .file n _ => n
  | .dir n _ _ => n

mutual

/-- Structural size of a filesystem entry, used as fuel for the walk. -/
def FSEntry.sz : FSEntry → Nat
  | .file _ _ => 1
  | .dir _ _ es => 1 + FSEntry.szList es

/-- Structural size of a list of filesystem entries. -/
def FSEntry.szList : List FSEntry → Nat
  | [] => 0
  | e :: es => FSEntry.sz e + FSEntry.szList es

end

/-- In-memory tree produced by the builder; mirrors `TreeNode` in `tree.rs`
(the `path` field is dropped: it duplicates the name in this model). -/
inductive TreeNode : Type where
  | file (name : String) (size : Nat)
  | directory (name : String) (children : List TreeNode)
      (total_files : Nat) (total_size : Nat) (direct_files : Nat) (direct_size : Nat)

mutual

/-- Structural size of a tree node, used as fuel for tree traversals. -/
def TreeNode.sz : TreeNode → Nat
  | .file _ _ => 1
  | .directory _ children _ _ _ _ => 1 + TreeNode.szList children

/-- Structural size of a list of tree nodes. -/
def TreeNode.szList : List TreeNode → Nat
  | [] => 0
  | t :: ts => TreeNode.sz t + TreeNode.szList ts

end

def TreeNode.isFileNode : TreeNode → Bool
  | .file _ _ => true
  | _ => false

def TreeNode.isDirNode : TreeNode → Bool
  | .directory _ _ _ _ _ _ => true
  | _ => false

def TreeNode.fileSize : TreeNode → Nat
  | .file _ s => s
  | _ => 0

def TreeNode.totalFiles : TreeNode → Nat
  | .directory _ _ tf _ _ _ => tf
  | _ => 0

def TreeNode.totalSize : TreeNode → Nat
  | .directory _ _ _ ts _ _ => ts
  | _ => 0

/-- The `has_files` test of `build_directory_tree`: a `Directory` node with
`total_files > 0`; anything else is `false`. -/
def TreeNode.hasFiles : TreeNode → Bool
  | .directory _ _ tf _ _ _ => decide (0 < tf)
  | _ => false

/-- Rust `s.starts_with('.')`: the first character is a dot.  Written on the
character list so that it evaluates by kernel reduction. -/
def startsWithDot (s : String) : Bool :=
  match s.data with
  | [] => false
  | c :: _ => c == '.'

/-- Result of classifying one directory entry, following the filter chain in
`process_directory_entries` (`list_files.rs`). -/
inductive Classification : Type where
  | keptFile (name : String) (size : Nat)
  | keptDir
  | reject
deriving DecidableEq

/-- Chars after the last dot of the list, if any; helper for `rustExtension`. -/
def afterLastDot : List Char → Option (List Char)
  | [] => none
  | c :: cs =>
      match afterLastDot cs with
      | some r => some r
      | none => if c = '.' then some cs else none

/-- Rust `Path::extension()` on a file name: the portion after the final `.`,
except that a dot at the very first position does not count (so `.gitignore`
has no extension). -/
def rustExtension (name : String) : Option String :=
  match name.data with
  | [] => none
  | _ :: rest => (afterLastDot rest).map fun l => String.mk l

/-- Classification of a single entry, mirroring the checks of
`process_directory_entries` in `list_files.rs` in source order: the
ignored-name check runs first and applies to every entry (the code checks the
name before even fetching metadata), then the hidden check, then for files the
minimum-size and extension checks. -/
def classifyEntry (ext : String) (ignore_dirs : List String) (min_size : Nat)
    (e : FSEntry) : Classification :=
  if ignore_dirs.contains e.name then Classification.reject
  else if startsWithDot e.name then Classification.reject
  else
    match e with
    | FSEntry.file n size =>
        if size < min_size then Classification.reject
        else if ext.isEmpty || rustExtension n == some ext then
          Classification.keptFile n size
        else Classification.reject
    | FSEntry.dir _ _ _ => Classification.keptDir

def keptFileEntry (ext : String) (ignore_dirs : List String) (min_size : Nat)
    (e : FSEntry) : Option (String × Nat) :=
  match classifyEntry ext ignore_dirs min_size e with
  | Classification.keptFile n s => some (n, s)
  | _ => none

def isKeptDirEntry (ext : String) (ignore_dirs : List String) (min_size : Nat)
    (e : FSEntry) : Bool :=
  match classifyEntry ext ignore_dirs min_size e with
  | Classification.keptDir => true
  | _ => false

/-- Stable insertion into a name-sorted list; insertion sort models the stable
`sort_by(file_name cmp)` of the Rust code. -/
def insertByName {α : Type} (key : α → String) (x : α) : List α → List α
  | [] => [x]
  | y :: ys =>
      match compare (key x) (key y) with
      | Ordering.gt => y :: insertByName key x ys
      | _ => x :: y :: ys

def sortByName {α : Type} (key : α → String) : List α → List α
  | [] => []
  | x :: xs => insertByName key x (sortByName key xs)

/-- `process_directory_entries` of `list_files.rs`: classify every entry,
collect kept files (name and size) and kept directories, each sorted by
name.  Classification of distinct entries is independent, so the parallel
loop of the code is modelled by a simple traversal. -/
def process_directory_entries (entries : List FSEntry) (ext : String)
    (ignore_dirs : List String) (min_size : Nat) :
    List (String × Nat) × List FSEntry :=
  (sortByName Prod.fst (entries.filterMap (keptFileEntry ext ignore_dirs min_size)),
   sortByName FSEntry.name (entries.filter (isKeptDirEntry ext ignore_dirs min_size)))

/-- The retained-children computation of the subdirectory loop: keep exactly
the results that came back `Some` with `has_files` true. -/
def keptOf (results : List (Option TreeNode × List String)) : List TreeNode :=
  results.filterMap fun r =>
    match r.1 with
    | some nd => if nd.hasFiles then some nd else none
    | none => none

def optTotalFiles : Option TreeNode → Nat
  | some t => t.totalFiles
  | none => 0

def optTotalSize : Option TreeNode → Nat
  | some t => t.totalSize
  | none => 0

/-- The diagnostic `build_directory_tree` prints on a failed `read_dir`. -/
def errMsg (name : String) : String := "Error accessing directory: " ++ name

/-- Fuel-indexed body of `build_directory_tree` (`list_files.rs`).  Returns
the optional node together with the list of diagnostics emitted on the error
stream, in emission order.  A file path or an unreadable directory is a
failed `read_dir`.  For a readable directory: direct files become leaves and
the direct statistics; each kept subdirectory is built recursively and is
attached only when it came back `Some` with `total_files > 0`, its cumulative
statistics then being added to the parent's totals; the call returns `Some`
exactly when the node's `total_files` is positive. -/
def buildF (ext : String) (ignore_dirs : List String) (min_size : Nat) :
    Nat → FSEntry → Option TreeNode × List String
  | 0, _ => (none, [])
  | _ + 1, FSEntry.file n _ => (none, [errMsg n])
  | _ + 1, FSEntry.dir n false _ => (none, [errMsg n])
  | fuel + 1, FSEntry.dir n true entries =>
      let fd := process_directory_entries entries ext ignore_dirs min_size
      let direct_files := fd.1.length
      let direct_size := (fd.1.map Prod.snd).sum
      let fileNodes := fd.1.map fun p => TreeNode.file p.1 p.2
      let results := fd.2.map (buildF ext ignore_dirs min_size fuel)
      let kept := keptOf results
      let total_files := direct_files + (kept.map TreeNode.totalFiles).sum
      let total_size := direct_size + (kept.map TreeNode.totalSize).sum
      (if 0 < total_files then
        some (TreeNode.directory n (fileNodes ++ kept)
          total_files total_size direct_files direct_size)
      else none, (results.map Prod.snd).flatten)

/-- `build_directory_tree` of `list_files.rs`, with the structural size of the
entry as fuel (always sufficient, since recursion descends into structurally
smaller entries). -/
def build_directory_tree (ext : String) (ignore_dirs : List String)
    (min_size : Nat) (e : FSEntry) : Option TreeNode × List String :=
  buildF ext ignore_dirs min_size e.sz e

/-- Number of kept files in the whole subtree of an entry, under the scan
rules: zero for a file path or an unreadable directory, and for a readable
directory the direct kept files plus the counts of the kept subdirectories.
This is the value `build_directory_tree` stores in `total_files`. -/
def countKeptF (ext : String) (ignore_dirs : List String) (min_size : Nat) :
    Nat → FSEntry → Nat
  | 0, _ => 0
  | _ + 1, FSEntry.file _ _ => 0
  | _ + 1, FSEntry.dir _ false _ => 0
  | fuel + 1, FSEntry.dir _ true entries =>
      let fd := process_directory_entries entries ext ignore_dirs min_size
      fd.1.length + (fd.2.map (countKeptF ext ignore_dirs min_size fuel)).sum

def countKept (ext : String) (ignore_dirs : List String) (min_size : Nat)
    (e : FSEntry) : Nat :=
  countKeptF ext ignore_dirs min_size e.sz e

/-- Total bytes of kept files in the whole subtree, the value stored in
`total_size`; zero for unreadable subtrees. -/
def countSizeF (ext : String) (ignore_dirs : List String) (min_size : Nat) :
    Nat → FSEntry → Nat
  | 0, _ => 0
  | _ + 1, FSEntry.file _ _ => 0
  | _ + 1, FSEntry.dir _ false _ => 0
  | fuel + 1, FSEntry.dir _ true entries =>
      let fd := process_directory_entries entries ext ignore_dirs min_size
      (fd.1.map Prod.snd).sum + (fd.2.map (countSizeF ext ignore_dirs min_size fuel)).sum

def countSize (ext : String) (ignore_dirs : List String) (min_size : Nat)
    (e : FSEntry) : Nat :=
  countSizeF ext ignore_dirs min_size e.sz e

/-- Fuel-indexed check of the per-directory statistics invariant: in every
directory node, `direct_files`/`direct_size` count exactly the immediate file
children, and the totals are the direct values plus the sum of the child
directories' totals. -/
def invF : Nat → TreeNode → Bool
  | 0, _ => false
  | _ + 1, TreeNode.file _ _ => true
  | fuel + 1, TreeNode.directory _ children tf ts df ds =>
      (df == (children.filter TreeNode.isFileNode).length) &&
      (ds == ((children.filter TreeNode.isFileNode).map TreeNode.fileSize).sum) &&
      (tf == df + ((children.filter TreeNode.isDirNode).map TreeNode.totalFiles).sum) &&
      (ts == ds + ((children.filter TreeNode.isDirNode).map TreeNode.totalSize).sum) &&
      children.all (invF fuel)

/-- The statistics invariant of a tree (fuel `TreeNode.sz` is always
sufficient). -/
def dirInvariant (t : TreeNode) : Prop := invF t.sz t = true

instance (t : TreeNode) : Decidable (dirInvariant t) := by
  unfold dirInvariant; infer_instance

/-- Fuel-indexed check that every directory node of a tree has
`total_files > 0`. -/
def allDirsPosF : Nat → TreeNode → Bool
  | 0, _ => false
  | _ + 1, TreeNode.file _ _ => true
  | fuel + 1, TreeNode.directory _ children tf _ _ _ =>
      decide (0 < tf) && children.all (allDirsPosF fuel)

def allDirsPos (t : TreeNode) : Prop := allDirsPosF t.sz t = true

instance (t : TreeNode) : Decidable (allDirsPos t) := by
  unfold allDirsPos; infer_instance

/-- Global accumulator mirrored from `FileStats` in `list_files.rs`. -/
structure FileStats where
  total_files : Nat
  total_dirs : Nat
  total_bytes : Nat
deriving DecidableEq

/-- Fuel-indexed statistics effect of `print_tree` (`list_files.rs`, the
stats-only rendering mode; `print_tree_num` in `print.rs` updates the
accumulator the same way).  Visiting a directory adds one to `total_dirs`,
the number of immediate file children to `total_files`, and the node's
cumulative `total_size` to `total_bytes`, then recurses into every child;
file nodes are not printed and leave the accumulator unchanged.  The printed
text itself is I/O and is not modelled; only the accumulator is. -/
def print_treeF : Nat → TreeNode → FileStats → FileStats
  | 0, _, st => st
  | _ + 1, TreeNode.file _ _, st => st
  | fuel + 1, TreeNode.directory _ children _ ts _ _, st =>
      let st1 : FileStats :=
        { total_files := st.total_files + (children.filter TreeNode.isFileNode).length,
          total_dirs := st.total_dirs + 1,
          total_bytes := st.total_bytes + ts }
      children.foldl (fun s c => print_treeF fuel c s) st1

/-- The accumulator after `print_tree` renders a tree. -/
def print_tree (t : TreeNode) (st : FileStats) : FileStats :=
  print_treeF t.sz t st

/-- Fuel-indexed statistics effect of `print_tree_file` (`print.rs`, the full
rendering mode): a directory adds one to `total_dirs` and its cumulative
`total_size` to `total_bytes`, then its file children are visited before its
directory children; each file adds one to `total_files` and its own size to
`total_bytes`. -/
def print_tree_fileF : Nat → TreeNode → FileStats → FileStats
  | 0, _, st => st
  | _ + 1, TreeNode.file _ size, st =>
      { st with total_files := st.total_files + 1, total_bytes := st.total_bytes + size }
  | fuel + 1, TreeNode.directory _ children _ ts _ _, st =>
      let st1 : FileStats :=
        { st with total_dirs := st.total_dirs + 1, total_bytes := st.total_bytes + ts }
      ((children.filter TreeNode.isFileNode) ++ (children.filter TreeNode.isDirNode)).foldl
        (fun s c => print_tree_fileF fuel c s) st1

/-- The accumulator after `print_tree_file` renders a tree. -/
def print_tree_file (t : TreeNode) (st : FileStats) : FileStats :=
  print_tree_fileF t.sz t st

/-- Modelled from the spec: the source under `src/` has no maximum-size or
glob-pattern filter, so the full EntryClassifier of spec section 4.1 is
reconstructed from the spec's words, rules applied in the spec's fixed order
(hidden; ignored directory; directory keep; file below minimum; file above
maximum; extension mismatch; pattern mismatch; keep).  `max_size = none` is
the unbounded default; the compiled glob matcher is abstracted as an optional
predicate on the file name. -/
def classifySpec (min_size : Nat) (max_size : Option Nat) (ext : String)
    (ignore_dirs : List String) (pat : Option (String → Bool))
    (e : FSEntry) : Classification :=
  if startsWithDot e.name then Classification.reject
  else
    match e with
    | FSEntry.dir n _ _ =>
        if ignore_dirs.contains n then Classification.reject
        else Classification.keptDir
    | FSEntry.file n size =>
        if size < min_size then Classification.reject
        else if match max_size with
                | some m => decide (m < size)
                | none => false then Classification.reject
        else if !ext.isEmpty && !(rustExtension n == some ext) then Classification.reject
        else if match pat with
                | some p => !p n
                | none => false then Classification.reject
        else Classification.keptFile n size

/-- The spec classifier with the maximum-size rule deleted, used to state that
the unbounded default never rejects by size from above. -/
def classifySpecNoMax (min_size : Nat) (ext : String)
    (ignore_dirs : List String) (pat : Option (String → Bool))
    (e : FSEntry) : Classification :=
  if startsWithDot e.name then Classification.reject
  else
    match e with
    | FSEntry.dir n _ _ =>
        if ignore_dirs.contains n then Classification.reject
        else Classification.keptDir
    | FSEntry.file n size =>
        if size < min_size then Classification.reject
        else if !ext.isEmpty && !(rustExtension n == some ext) then Classification.reject
        else if match pat with
                | some p => !p n
                | none => false then Classification.reject
        else Classification.keptFile n size

/-- Modelled from the spec: the source under `src/` has no depth limit, so the
TreeBuilder depth semantics of spec sections 4.3 and 3 are grafted onto the
source's scanner: `build(path, config, depth)` recurses into kept
subdirectories only when `max_depth = 0` (unlimited) or `depth < max_depth`,
the recursive call receiving `depth + 1`; everything else matches
`build_directory_tree`. -/
def buildDepthF (ext : String) (ignore_dirs : List String) (min_size : Nat)
    (max_depth : Nat) : Nat → Nat → FSEntry → Option TreeNode × List String
  | 0, _, _ => (none, [])
  | _ + 1, _, FSEntry.file n _ => (none, [errMsg n])
  | _ + 1, _, FSEntry.dir n false _ => (none, [errMsg n])
  | fuel + 1, depth, FSEntry.dir n true entries =>
      let fd := process_directory_entries entries ext ignore_dirs min_size
      let direct_files := fd.1.length
      let direct_size := (fd.1.map Prod.snd).sum
      let fileNodes := fd.1.map fun p => TreeNode.file p.1 p.2
      let results :=
        if max_depth = 0 ∨ depth < max_depth then
          fd.2.map (buildDepthF ext ignore_dirs min_size max_depth fuel (depth + 1))
        else []
      let kept := keptOf results
      let total_files := direct_files + (kept.map TreeNode.totalFiles).sum
      let total_size := direct_size + (kept.map TreeNode.totalSize).sum
      (if 0 < total_files then
        some (TreeNode.directory n (fileNodes ++ kept)
          total_files total_size direct_files direct_size)
      else none, (results.map Prod.snd).flatten)

/-- Wrapper of the spec-modelled depth-limited builder. -/
def build_directory_tree_depth (ext : String) (ignore_dirs : List String)
    (min_size : Nat) (max_depth : Nat) (depth : Nat) (e : FSEntry) :
    Option TreeNode × List String :=
  buildDepthF ext ignore_dirs min_size max_depth e.sz depth e

/-- The character for a decimal digit value. -/
def digitChar (d : Nat) : Char := Char.ofNat (48 + d)

/-- Fuel-indexed most-significant-first decimal digits of a number, pushed in
front of an accumulator; fuel `n` is sufficient for `n`. -/
def natDigitsGo : Nat → Nat → List Char → List Char
  | 0, _, acc => acc
  | _ + 1, 0, acc => acc
  | fuel + 1, n + 1, acc =>
      natDigitsGo fuel ((n + 1) / 10) (digitChar ((n + 1) % 10) :: acc)

/-- Decimal digit characters of a number, as Rust's integer formatting
produces them. -/
def natDigits (n : Nat) : List Char :=
  if n = 0 then ['0'] else natDigitsGo n n []

/-- Numeric value of a list of digit characters (most significant first). -/
def digitsToNat (l : List Char) : Nat :=
  l.foldl (fun a c => 10 * a + (c.toNat - 48)) 0

/-- Binary units of `file_size.rs`. -/
def sizeKB : Nat := 1024

def sizeMB : Nat := sizeKB * 1024

def sizeGB : Nat := sizeMB * 1024

/-- Round `num / den` to the nearest integer, ties to even — the rounding
Rust's `{:.2}` float formatting performs, expressed on the exact value scaled
by 100. -/
def roundHalfEven (num den : Nat) : Nat :=
  let q := num / den
  let r := num % den
  if 2 * r < den then q
  else if den < 2 * r then q + 1
  else if q % 2 = 0 then q else q + 1

/-- Two decimal digits for a value below 100, zero-padded as `{:.2}` pads. -/
def pad2 (m : Nat) : List Char :=
  if m < 10 then '0' :: natDigits m else natDigits m

/-- The characters `{:.2}` produces for the exact value `bytes / unit`,
followed by a suffix: the value is scaled by 100 and rounded half-to-even,
then printed as integer part, dot, two fractional digits.  Floating-point
numbers are modelled by exact rationals: for the byte counts and power-of-two
units involved the double computation is exact up to the displayed rounding. -/
def fmt2 (bytes unit : Nat) (suffix : List Char) : List Char :=
  let c := roundHalfEven (100 * bytes) unit
  natDigits (c / 100) ++ '.' :: (pad2 (c % 100) ++ suffix)

/-- `format_size` of `file_size.rs`: `"{:.2} GB"`, `"{:.2} MB"`, `"{:.2} KB"`
above the respective binary thresholds, else `"{} bytes"`. -/
def format_size (bytes : Nat) : String :=
  String.mk
    (if sizeGB ≤ bytes then fmt2 bytes sizeGB [' ', 'G', 'B']
     else if sizeMB ≤ bytes then fmt2 bytes sizeMB [' ', 'M', 'B']
     else if sizeKB ≤ bytes then fmt2 bytes sizeKB [' ', 'K', 'B']
     else natDigits bytes ++ [' ', 'b', 'y', 't', 'e', 's'])

/-- A character the parse loop sends to the numeric part: a digit or a dot. -/
def isNumChar (c : Char) : Bool := c.isDigit || c == '.'

/-- Rust `str::parse::<f64>` on the collected numeric characters, restricted
to the digit-and-dot strings the collection produces: digits, optionally one
dot with digit fraction; empty or lone-dot or multi-dot input fails.  The
parsed value is the exact decimal `v.1 / 10 ^ v.2`, represented as the scaled
integer paired with the fraction length (the doubles arising here are exact
decimals, so this representation loses nothing and keeps everything
kernel-computable). -/
def parseDecimal (l : List Char) : Option (Nat × Nat) :=
  let ip := l.takeWhile Char.isDigit
  let rest := l.drop ip.length
  match rest with
  | [] => if ip.isEmpty then none else some (digitsToNat ip, 0)
  | '.' :: fp =>
      if fp.all Char.isDigit then
        if ip.isEmpty && fp.isEmpty then none
        else some (digitsToNat ip * 10 ^ fp.length + digitsToNat fp, fp.length)
      else none
  | _ :: _ => none

/-- The unit table of `parse_size`. -/
def unitMultiplier : String → Option Nat
  | "" => some 1
  | "b" => some 1
  | "bytes" => some 1
  | "k" => some 1024
  | "kb" => some 1024
  | "kib" => some 1024
  | "m" => some (1024 * 1024)
  | "mb" => some (1024 * 1024)
  | "mib" => some (1024 * 1024)
  | "g" => some (1024 * 1024 * 1024)
  | "gb" => some (1024 * 1024 * 1024)
  | "gib" => some (1024 * 1024 * 1024)
  | _ => none

/-- Rust `str::trim` on a character list: drop whitespace from both ends. -/
def trimChars (l : List Char) : List Char :=
  ((l.dropWhile Char.isWhitespace).reverse.dropWhile Char.isWhitespace).reverse

/-- `parse_size` of `file_size.rs`: trim and lowercase the input, then send
every digit or dot (in order) to the numeric part and every other
non-whitespace character (in order) to the unit part, wherever they appear;
parse the numeric part as a float (an exact decimal here), look the unit up
case-insensitively, and cast value times multiplier `as u64`.  For the
nonnegative exact decimal `v.1 / 10 ^ v.2` that cast truncates toward zero,
i.e. yields `v.1 * mult / 10 ^ v.2` in natural division, saturating at the
largest 64-bit value. -/
def parse_size (size_str : String) : Except String Nat :=
  let s := (trimChars size_str.data).map Char.toLower
  let numeric_part := s.filter isNumChar
  let unit_part := s.filter fun c => !(isNumChar c) && !c.isWhitespace
  match parseDecimal numeric_part with
  | none => Except.error ("Invalid numeric value in size: " ++ String.mk s)
  | some v =>
      match unitMultiplier (String.mk unit_part) with
      | none => Except.error ("Unknown size unit: " ++ String.mk unit_part)
      | some mult => Except.ok (min (v.1 * mult / 10 ^ v.2) (2 ^ 64 - 1))

/-- The unit `format_size` formats a byte count in; tolerance for the
round-trip claim is stated relative to it. -/
def formatUnit (bytes : Nat) : Nat :=
  if sizeGB ≤ bytes then sizeGB
  else if sizeMB ≤ bytes then sizeMB
  else if sizeKB ≤ bytes then sizeKB
  else 1

theorem mem_insertByName {α : Type} (key : α → String) (a x : α) (l : List α) :
    x ∈ insertByName key a l ↔ x = a ∨ x ∈ l := by
  induction l with
  | nil => simp [insertByName]
  | cons y ys ih =>
      simp only [insertByName]
      cases compare (key a) (key y) <;> simp [ih] <;> tauto

theorem mem_sortByName {α : Type} (key : α → String) (x : α) (l : List α) :
    x ∈ sortByName key l ↔ x ∈ l := by
  induction l with
  | nil => simp [sortByName]
  | cons y ys ih => simp [sortByName, mem_insertByName, ih]

theorem mem_entries_of_mem_process_dirs {entries : List FSEntry} {ext : String}
    {ignore_dirs : List String} {min_size : Nat} {d : FSEntry}
    (h : d ∈ (process_directory_entries entries ext ignore_dirs min_size).2) :
    d ∈ entries := by
  simp only [process_directory_entries, mem_sortByName] at h
  exact List.mem_of_mem_filter h

theorem fsSz_pos (e : FSEntry) : 0 < e.sz := by
  cases e <;> simp [FSEntry.sz]

theorem fsSz_le_szList {e : FSEntry} {l : List FSEntry} (h : e ∈ l) :
    e.sz ≤ FSEntry.szList l := by
  induction l with
  | nil => cases h
  | cons a as ih =>
      rcases List.mem_cons.mp h with h | h
      · subst h; simp [FSEntry.szList]
      · have := ih h; simp [FSEntry.szList]; omega

theorem sz_lt_of_mem_process_dirs {entries : List FSEntry} {ext : String}
    {ignore_dirs : List String} {min_size : Nat} {d : FSEntry} {n : String} {r : Bool}
    (h : d ∈ (process_directory_entries entries ext ignore_dirs min_size).2) :
    d.sz < (FSEntry.dir n r entries).sz := by
  have h1 := fsSz_le_szList (mem_entries_of_mem_process_dirs h)
  simp [FSEntry.sz]; omega

theorem treeSz_pos (t : TreeNode) : 0 < t.sz := by
  cases t <;> simp [TreeNode.sz]

theorem treeSz_le_szList {t : TreeNode} {l : List TreeNode} (h : t ∈ l) :
    t.sz ≤ TreeNode.szList l := by
  induction l with
  | nil => cases h
  | cons a as ih =>
      rcases List.mem_cons.mp h with h | h
      · subst h; simp [TreeNode.szList]
      · have := ih h; simp [TreeNode.szList]; omega

theorem sz_lt_of_mem_children {t : TreeNode} {children : List TreeNode} {n : String}
    {tf ts df ds : Nat} (h : t ∈ children) :
    t.sz < (TreeNode.directory n children tf ts df ds).sz := by
  have h1 := treeSz_le_szList h
  have h2 := treeSz_pos t
  simp [TreeNode.sz]; omega

theorem hasFiles_iff (nd : TreeNode) :
    nd.hasFiles = true ↔ nd.isDirNode = true ∧ 0 < nd.totalFiles := by
  cases nd <;> simp [TreeNode.hasFiles, TreeNode.isDirNode, TreeNode.totalFiles]

theorem mem_keptOf {nd : TreeNode} {rs : List (Option TreeNode × List String)} :
    nd ∈ keptOf rs ↔ ∃ r ∈ rs, r.1 = some nd ∧ nd.hasFiles = true := by
  simp only [keptOf, List.mem_filterMap]
  constructor
  · rintro ⟨r, hr, h⟩
    cases hm : r.1 with
    | none => rw [hm] at h; cases h
    | some m =>
        rw [hm] at h
        dsimp only at h
        by_cases hf : m.hasFiles
        · rw [if_pos hf] at h
          cases h
          exact ⟨r, hr, hm, hf⟩
        · rw [if_neg hf] at h; cases h
  · rintro ⟨r, hr, h1, h2⟩
    exact ⟨r, hr, by rw [h1]; simp [h2]⟩

theorem totalFiles_eq_zero_of_not_hasFiles {nd : TreeNode} (h : ¬nd.hasFiles = true) :
    nd.totalFiles = 0 := by
  cases nd <;> simp [TreeNode.hasFiles, TreeNode.totalFiles] at h ⊢ <;> omega

theorem sum_totalFiles_keptOf (rs : List (Option TreeNode × List String)) :
    ((keptOf rs).map TreeNode.totalFiles).sum =
      (rs.map fun r => optTotalFiles r.1).sum := by
  induction rs with
  | nil => rfl
  | cons r rs ih =>
      cases hm : r.1 with
      | none => simpa [keptOf, List.filterMap_cons, hm, optTotalFiles] using ih
      | some nd =>
          by_cases hf : nd.hasFiles
          · simpa [keptOf, List.filterMap_cons, hm, hf, optTotalFiles] using ih
          · have h0 := totalFiles_eq_zero_of_not_hasFiles hf
            simpa [keptOf, List.filterMap_cons, hm, hf, optTotalFiles, h0] using ih

theorem sum_totalSize_keptOf (rs : List (Option TreeNode × List String))
    (hs : ∀ r ∈ rs, ∀ nd, r.1 = some nd → nd.hasFiles = true) :
    ((keptOf rs).map TreeNode.totalSize).sum =
      (rs.map fun r => optTotalSize r.1).sum := by
  induction rs with
  | nil => rfl
  | cons r rs ih =>
      have ihs : ∀ r ∈ rs, ∀ nd, r.1 = some nd → nd.hasFiles = true := by
        intro r hr nd h; exact hs r (List.mem_cons_of_mem _ hr) nd h
      cases hm : r.1 with
      | none => simpa [keptOf, List.filterMap_cons, hm, optTotalSize] using ih ihs
      | some nd =>
          have hf := hs r (List.mem_cons_self _ _) nd hm
          simpa [keptOf, List.filterMap_cons, hm, hf, optTotalSize] using ih ihs

theorem buildF_some_hasFiles {ext : String} {ignore_dirs : List String} {min_size : Nat} :
    ∀ {fuel : Nat} {e : FSEntry} {t : TreeNode} {logs : List String},
    buildF ext ignore_dirs min_size fuel e = (some t, logs) → t.hasFiles = true := by
  intro fuel e t logs h
  match fuel, e with
  | 0, e => simp [buildF] at h
  | f + 1, FSEntry.file n s => simp [buildF] at h
  | f + 1, FSEntry.dir n false es => simp [buildF] at h
  | f + 1, FSEntry.dir n true es =>
      simp only [buildF, Prod.mk.injEq] at h
      obtain ⟨h1, _⟩ := h
      split at h1
      case isTrue hpos =>
          cases h1
          simp [TreeNode.hasFiles]
          omega
      case isFalse => cases h1

theorem buildF_some_totalFiles_pos {ext : String} {ignore_dirs : List String}
    {min_size : Nat} {fuel : Nat} {e : FSEntry} {t : TreeNode} {logs : List String}
    (h : buildF ext ignore_dirs min_size fuel e = (some t, logs)) : 0 < t.totalFiles := by
  have := buildF_some_hasFiles h
  exact ((hasFiles_iff t).mp this).2

theorem buildF_totalFiles (ext : String) (ignore_dirs : List String) (min_size : Nat) :
    ∀ (fuel : Nat) (e : FSEntry),
    optTotalFiles (buildF ext ignore_dirs min_size fuel e).1 =
      countKeptF ext ignore_dirs min_size fuel e := by
  intro fuel
  induction fuel with
  | zero => intro e; rfl
  | succ f ih =>
      intro e
      match e with
      | FSEntry.file n s => rfl
      | FSEntry.dir n false es => rfl
      | FSEntry.dir n true es =>
          simp only [buildF, countKeptF]
          have key : ((keptOf ((process_directory_entries es ext ignore_dirs min_size).2.map
                (buildF ext ignore_dirs min_size f))).map TreeNode.totalFiles).sum =
              ((process_directory_entries es ext ignore_dirs min_size).2.map
                (countKeptF ext ignore_dirs min_size f)).sum := by
            rw [sum_totalFiles_keptOf, List.map_map]
            refine congrArg List.sum (List.map_congr_left fun d _ => ?_)
            exact ih d
          rw [key]
          split
          case isTrue hp => simp only [optTotalFiles, TreeNode.totalFiles]
          case isFalse hp =>
              simp only [optTotalFiles]
              omega

theorem countSizeF_eq_zero {ext : String} {ignore_dirs : List String} {min_size : Nat} :
    ∀ {fuel : Nat} {e : FSEntry},
    countKeptF ext ignore_dirs min_size fuel e = 0 →
    countSizeF ext ignore_dirs min_size fuel e = 0 := by
  intro fuel
  induction fuel with
  | zero => intro e _; rfl
  | succ f ih =>
      intro e h
      match e with
      | FSEntry.file n s => rfl
      | FSEntry.dir n false es => rfl
      | FSEntry.dir n true es =>
          simp only [countKeptF, Nat.add_eq_zero] at h
          obtain ⟨h1, h2⟩ := h
          have hfiles : (process_directory_entries es ext ignore_dirs min_size).1 = [] :=
            List.length_eq_zero.mp h1
          simp only [countSizeF, hfiles, List.map_nil, List.sum_nil, Nat.zero_add]
          refine List.sum_eq_zero ?_
          intro x hx
          rw [List.mem_map] at hx
          obtain ⟨d, hd, rfl⟩ := hx
          refine ih ?_
          have := List.sum_eq_zero_iff.mp h2
          exact this _ (List.mem_map_of_mem _ hd)

theorem buildF_totalSize (ext : String) (ignore_dirs : List String) (min_size : Nat) :
    ∀ (fuel : Nat) (e : FSEntry),
    optTotalSize (buildF ext ignore_dirs min_size fuel e).1 =
      if countKeptF ext ignore_dirs min_size fuel e = 0 then 0
      else countSizeF ext ignore_dirs min_size fuel e := by
  intro fuel
  induction fuel with
  | zero => intro e; rfl
  | succ f ih =>
      intro e
      match e with
      | FSEntry.file n s => rfl
      | FSEntry.dir n false es => rfl
      | FSEntry.dir n true es =>
          simp only [buildF, countKeptF, countSizeF]
          have htf := buildF_totalFiles ext ignore_dirs min_size f
          have key : ((keptOf ((process_directory_entries es ext ignore_dirs min_size).2.map
                (buildF ext ignore_dirs min_size f))).map TreeNode.totalSize).sum =
              ((process_directory_entries es ext ignore_dirs min_size).2.map
                (countSizeF ext ignore_dirs min_size f)).sum := by
            rw [sum_totalSize_keptOf, List.map_map]
            · refine congrArg List.sum (List.map_congr_left fun d _ => ?_)
              show optTotalSize (buildF ext ignore_dirs min_size f d).1 = _
              rw [ih d]
              split
              case isTrue hz => exact (countSizeF_eq_zero hz).symm
              case isFalse hz => rfl
            · intro r hr nd hnd
              rw [List.mem_map] at hr
              obtain ⟨d, _, rfl⟩ := hr
              have : buildF ext ignore_dirs min_size f d =
                  (some nd, (buildF ext ignore_dirs min_size f d).2) := by
                rw [← hnd]
              exact buildF_some_hasFiles this
          have keyf : ((keptOf ((process_directory_entries es ext ignore_dirs min_size).2.map
                (buildF ext ignore_dirs min_size f))).map TreeNode.totalFiles).sum =
              ((process_directory_entries es ext ignore_dirs min_size).2.map
                (countKeptF ext ignore_dirs min_size f)).sum := by
            rw [sum_totalFiles_keptOf, List.map_map]
            refine congrArg List.sum (List.map_congr_left fun d _ => ?_)
            exact htf d
          rw [key, keyf]
          split
          case isTrue hp =>
              simp only [optTotalSize, TreeNode.totalSize]
              rw [if_neg (by omega)]
          case isFalse hp =>
              simp only [optTotalSize]
              rw [if_pos (by omega)]

theorem invF_file_eq_true {n : String} {s : Nat} {g : Nat} (h : 0 < g) :
    invF g (TreeNode.file n s) = true := by
  obtain ⟨k, rfl⟩ : ∃ k, g = k + 1 := ⟨g - 1, by omega⟩
  rfl

theorem allDirsPosF_file_eq_true {n : String} {s : Nat} {g : Nat} (h : 0 < g) :
    allDirsPosF g (TreeNode.file n s) = true := by
  obtain ⟨k, rfl⟩ : ∃ k, g = k + 1 := ⟨g - 1, by omega⟩
  rfl

theorem isFileNode_eq_false_of_isDir {nd : TreeNode} (h : nd.isDirNode = true) :
    nd.isFileNode = false := by
  cases nd
  · simp [TreeNode.isDirNode] at h
  · rfl

theorem keptOf_mem_isDir {rs : List (Option TreeNode × List String)} {nd : TreeNode}
    (h : nd ∈ keptOf rs) : nd.isDirNode = true :=
  ((hasFiles_iff nd).mp (mem_keptOf.mp h).choose_spec.2.2).1

theorem filter_isFile_map_file (fs : List (String × Nat)) :
    (fs.map fun p => TreeNode.file p.1 p.2).filter TreeNode.isFileNode =
      fs.map fun p => TreeNode.file p.1 p.2 := by
  rw [List.filter_eq_self]
  intro a ha
  rw [List.mem_map] at ha
  obtain ⟨p, _, rfl⟩ := ha
  rfl

theorem filter_isDir_map_file (fs : List (String × Nat)) :
    (fs.map fun p => TreeNode.file p.1 p.2).filter TreeNode.isDirNode = [] := by
  induction fs with
  | nil => rfl
  | cons p ps ih => simpa [List.filter_cons, TreeNode.isDirNode] using ih

theorem filter_isFile_keptOf (rs : List (Option TreeNode × List String)) :
    (keptOf rs).filter TreeNode.isFileNode = [] := by
  rw [List.filter_eq_nil_iff]
  intro nd hnd
  rw [isFileNode_eq_false_of_isDir (keptOf_mem_isDir hnd)]
  simp

theorem filter_isDir_keptOf (rs : List (Option TreeNode × List String)) :
    (keptOf rs).filter TreeNode.isDirNode = keptOf rs := by
  rw [List.filter_eq_self]
  intro nd hnd
  exact keptOf_mem_isDir hnd

theorem buildF_invariant {ext : String} {ignore_dirs : List String} {min_size : Nat} :
    ∀ {fuel : Nat} {e : FSEntry} {t : TreeNode} {logs : List String},
    buildF ext ignore_dirs min_size fuel e = (some t, logs) →
    ∀ g, t.sz ≤ g → invF g t = true := by
  intro fuel
  induction fuel with
  | zero => intro e t logs h; simp [buildF] at h
  | succ f ih =>
      intro e t logs h g hg
      match e with
      | FSEntry.file n s => simp [buildF] at h
      | FSEntry.dir n false es => simp [buildF] at h
      | FSEntry.dir n true es =>
          simp only [buildF, Prod.mk.injEq] at h
          obtain ⟨h1, _⟩ := h
          split at h1
          case isFalse => cases h1
          case isTrue hp =>
              have hgp : 0 < g := lt_of_lt_of_le (treeSz_pos t) hg
              injection h1 with h1
              subst h1
              obtain ⟨g0, rfl⟩ : ∃ k, g = k + 1 := ⟨g - 1, by omega⟩
              simp only [invF, Bool.and_eq_true, beq_iff_eq, List.all_eq_true]
              rw [List.filter_append, List.filter_append, filter_isFile_map_file,
                filter_isFile_keptOf, filter_isDir_map_file, filter_isDir_keptOf,
                List.append_nil, List.nil_append]
              refine ⟨⟨⟨⟨?_, ?_⟩, ?_⟩, ?_⟩, ?_⟩
              · rw [List.length_map]
              · rw [List.map_map]
                rfl
              · rfl
              · rfl
              · intro c hc
                have hlt : c.sz < g0 + 1 := lt_of_lt_of_le (sz_lt_of_mem_children hc) hg
                rcases List.mem_append.mp hc with hcf | hck
                · rw [List.mem_map] at hcf
                  obtain ⟨p, _, rfl⟩ := hcf
                  refine invF_file_eq_true ?_
                  simp [TreeNode.sz] at hlt
                  omega
                · obtain ⟨r, hr, hr1, _⟩ := mem_keptOf.mp hck
                  rw [List.mem_map] at hr
                  obtain ⟨d, hd, rfl⟩ := hr
                  have heq : buildF ext ignore_dirs min_size f d =
                      (some c, (buildF ext ignore_dirs min_size f d).2) := by
                    rw [← hr1]
                  exact ih heq g0 (by omega)

theorem buildF_allDirsPos {ext : String} {ignore_dirs : List String} {min_size : Nat} :
    ∀ {fuel : Nat} {e : FSEntry} {t : TreeNode} {logs : List String},
    buildF ext ignore_dirs min_size fuel e = (some t, logs) →
    ∀ g, t.sz ≤ g → allDirsPosF g t = true := by
  intro fuel
  induction fuel with
  | zero => intro e t logs h; simp [buildF] at h
  | succ f ih =>
      intro e t logs h g hg
      match e with
      | FSEntry.file n s => simp [buildF] at h
      | FSEntry.dir n false es => simp [buildF] at h
      | FSEntry.dir n true es =>
          simp only [buildF, Prod.mk.injEq] at h
          obtain ⟨h1, _⟩ := h
          split at h1
          case isFalse => cases h1
          case isTrue hp =>
              have hgp : 0 < g := lt_of_lt_of_le (treeSz_pos t) hg
              injection h1 with h1
              subst h1
              obtain ⟨g0, rfl⟩ : ∃ k, g = k + 1 := ⟨g - 1, by omega⟩
              simp only [allDirsPosF, Bool.and_eq_true, List.all_eq_true]
              refine ⟨by simpa using hp, ?_⟩
              intro c hc
              have hlt : c.sz < g0 + 1 := lt_of_lt_of_le (sz_lt_of_mem_children hc) hg
              rcases List.mem_append.mp hc with hcf | hck
              · rw [List.mem_map] at hcf
                obtain ⟨p, _, rfl⟩ := hcf
                refine allDirsPosF_file_eq_true ?_
                simp [TreeNode.sz] at hlt
                omega
              · obtain ⟨r, hr, hr1, _⟩ := mem_keptOf.mp hck
                rw [List.mem_map] at hr
                obtain ⟨d, hd, rfl⟩ := hr
                have heq : buildF ext ignore_dirs min_size f d =
                    (some c, (buildF ext ignore_dirs min_size f d).2) := by
                  rw [← hr1]
                exact ih heq g0 (by omega)

/-- C1: For every Directory node returned by `build_directory_tree`,
`total_files` equals `direct_files` plus the sum of `total_files` over its
retained child directories, and `total_size` equals `direct_size` plus the sum
of the retained children's `total_size`, where `direct_files`/`direct_size`
count exactly the node's immediate kept file children.  `dirInvariant` checks
these relations at the root and, recursively, at every directory node of the
returned tree. -/
theorem c1_statistics_invariant (ext : String) (ignore_dirs : List String)
    (min_size : Nat) (e : FSEntry) (t : TreeNode) (logs : List String)
    (h : build_directory_tree ext ignore_dirs min_size e = (some t, logs)) :
    dirInvariant t :=
  buildF_invariant h t.sz (le_refl _)

theorem c1_statistics_invariant_witness :
    dirInvariant (TreeNode.directory "root"
      [TreeNode.file "a.txt" 500,
       TreeNode.directory "sub" [TreeNode.file "c.txt" 10] 1 10 1 10] 2 510 1 500) :=
  c1_statistics_invariant "txt" [] 0
    (FSEntry.dir "root" true
      [FSEntry.file "b.log" 2000, FSEntry.file "a.txt" 500,
       FSEntry.dir "sub" true [FSEntry.file "c.txt" 10]])
    _ [] rfl

/-- C2: On a readable directory, `build_directory_tree` returns `None`
exactly when the number of kept files in the subtree — the value the call
computes as the node's `total_files` — is zero; in every returned tree the
root and every directory node have `total_files > 0` (a subdirectory is
attached only when its own `total_files` is positive), so no directory
contributing zero kept files anywhere in its subtree ever appears. -/
theorem c2_pruning (ext : String) (ignore_dirs : List String) (min_size : Nat) :
    (∀ (n : String) (entries : List FSEntry),
      (build_directory_tree ext ignore_dirs min_size (FSEntry.dir n true entries)).1 = none ↔
        countKept ext ignore_dirs min_size (FSEntry.dir n true entries) = 0) ∧
    (∀ (e : FSEntry) (t : TreeNode) (logs : List String),
      build_directory_tree ext ignore_dirs min_size e = (some t, logs) →
        t.totalFiles = countKept ext ignore_dirs min_size e ∧ allDirsPos t) := by
  constructor
  · intro n entries
    constructor
    · intro h
      have key := buildF_totalFiles ext ignore_dirs min_size
        (FSEntry.dir n true entries).sz (FSEntry.dir n true entries)
      rw [show (build_directory_tree ext ignore_dirs min_size
        (FSEntry.dir n true entries)).1 = (buildF ext ignore_dirs min_size
        (FSEntry.dir n true entries).sz (FSEntry.dir n true entries)).1 from rfl] at h
      rw [countKept, ← key, h]
      rfl
    · intro h
      cases hb : (build_directory_tree ext ignore_dirs min_size
          (FSEntry.dir n true entries)).1 with
      | none => rfl
      | some t =>
          exfalso
          have heq : build_directory_tree ext ignore_dirs min_size
              (FSEntry.dir n true entries) =
              (some t, (build_directory_tree ext ignore_dirs min_size
                (FSEntry.dir n true entries)).2) := by
            rw [← hb]
          have hpos := buildF_some_totalFiles_pos heq
          have key := buildF_totalFiles ext ignore_dirs min_size
            (FSEntry.dir n true entries).sz (FSEntry.dir n true entries)
          rw [show (buildF ext ignore_dirs min_size (FSEntry.dir n true entries).sz
            (FSEntry.dir n true entries)).1 = some t from hb] at key
          simp only [optTotalFiles] at key
          rw [countKept] at h
          omega
  · intro e t logs h
    refine ⟨?_, buildF_allDirsPos h t.sz (le_refl _)⟩
    have key := buildF_totalFiles ext ignore_dirs min_size e.sz e
    rw [show (buildF ext ignore_dirs min_size e.sz e).1 = some t from by
      rw [show buildF ext ignore_dirs min_size e.sz e =
        build_directory_tree ext ignore_dirs min_size e from rfl, h]] at key
    simpa [optTotalFiles, countKept] using key

theorem c2_pruning_witness :
    (build_directory_tree "" [] 0 (FSEntry.dir "empty" true [])).1 = none ∧
    allDirsPos (TreeNode.directory "root"
      [TreeNode.file "a.txt" 500,
       TreeNode.directory "sub" [TreeNode.file "c.txt" 10] 1 10 1 10] 2 510 1 500) :=
  ⟨((c2_pruning "" [] 0).1 "empty" []).mpr rfl,
   (((c2_pruning "txt" [] 0).2
      (FSEntry.dir "root" true
        [FSEntry.file "b.log" 2000, FSEntry.file "a.txt" 500,
         FSEntry.dir "sub" true [FSEntry.file "c.txt" 10]])
      _ [] rfl)).2⟩

theorem build_unreadable (ext : String) (ignore_dirs : List String) (min_size : Nat)
    (nm : String) (es : List FSEntry) :
    build_directory_tree ext ignore_dirs min_size (FSEntry.dir nm false es) =
      (none, [errMsg nm]) := by
  rw [build_directory_tree,
    show FSEntry.sz (FSEntry.dir nm false es) = FSEntry.szList es + 1 from by
      simp [FSEntry.sz]; omega]
  rfl

/-- C8: A directory that cannot be read yields the diagnostic
`Error accessing directory: <path>` on the error stream and `None`; its
subtree counts zero kept files and zero bytes (so it contributes nothing to
any returned node, whose totals always equal the kept-file counts of its
subtree), while the rest of the walk continues: a readable parent still
builds, and the diagnostic of any unreadable kept subdirectory appears in the
parent's emitted error output. -/
theorem c8_unreadable_directory (ext : String) (ignore_dirs : List String)
    (min_size : Nat) :
    (∀ (nm : String) (es : List FSEntry),
      build_directory_tree ext ignore_dirs min_size (FSEntry.dir nm false es) =
        (none, [errMsg nm])) ∧
    (∀ (nm : String) (es : List FSEntry),
      countKept ext ignore_dirs min_size (FSEntry.dir nm false es) = 0 ∧
      countSize ext ignore_dirs min_size (FSEntry.dir nm false es) = 0) ∧
    (∀ (e : FSEntry) (t : TreeNode) (logs : List String),
      build_directory_tree ext ignore_dirs min_size e = (some t, logs) →
        t.totalSize = countSize ext ignore_dirs min_size e) ∧
    (∀ (nm un : String) (entries ues : List FSEntry),
      FSEntry.dir un false ues ∈
        (process_directory_entries entries ext ignore_dirs min_size).2 →
      errMsg un ∈
        (build_directory_tree ext ignore_dirs min_size (FSEntry.dir nm true entries)).2) := by
  refine ⟨build_unreadable ext ignore_dirs min_size, ?_, ?_, ?_⟩
  · intro nm es
    constructor
    · rw [countKept, show FSEntry.sz (FSEntry.dir nm false es) = FSEntry.szList es + 1
        from by simp [FSEntry.sz]; omega]
      rfl
    · rw [countSize, show FSEntry.sz (FSEntry.dir nm false es) = FSEntry.szList es + 1
        from by simp [FSEntry.sz]; omega]
      rfl
  · intro e t logs h
    have key := buildF_totalSize ext ignore_dirs min_size e.sz e
    have keyf := buildF_totalFiles ext ignore_dirs min_size e.sz e
    have hb : (buildF ext ignore_dirs min_size e.sz e).1 = some t := by
      rw [show buildF ext ignore_dirs min_size e.sz e =
        build_directory_tree ext ignore_dirs min_size e from rfl, h]
    rw [hb] at key keyf
    simp only [optTotalSize, optTotalFiles] at key keyf
    have hpos := buildF_some_totalFiles_pos h
    rw [if_neg (by rw [← keyf]; omega)] at key
    simpa [countSize] using key
  · intro nm un entries ues hu
    rw [build_directory_tree,
      show FSEntry.sz (FSEntry.dir nm true entries) = FSEntry.szList entries + 1 from by
        simp [FSEntry.sz]; omega]
    have hsz : FSEntry.sz (FSEntry.dir un false ues) ≤ FSEntry.szList entries :=
      fsSz_le_szList (mem_entries_of_mem_process_dirs hu)
    have hpos : 0 < FSEntry.szList entries := lt_of_lt_of_le (fsSz_pos _) hsz
    obtain ⟨k, hk⟩ : ∃ k, FSEntry.szList entries = k + 1 :=
      ⟨FSEntry.szList entries - 1, by omega⟩
    rw [hk]
    simp only [buildF]
    rw [List.mem_flatten]
    refine ⟨[errMsg un], ?_, List.mem_singleton.mpr rfl⟩
    rw [List.map_map]
    exact List.mem_map.mpr ⟨FSEntry.dir un false ues, hu, rfl⟩

theorem c8_unreadable_directory_witness :
    build_directory_tree "" [] 0 (FSEntry.dir "locked" false [FSEntry.file "x" 7]) =
      (none, [errMsg "locked"]) ∧
    errMsg "locked" ∈
      (build_directory_tree "" [] 0
        (FSEntry.dir "root" true
          [FSEntry.dir "locked" false [FSEntry.file "x" 7], FSEntry.file "a" 5])).2 :=
  ⟨(c8_unreadable_directory "" [] 0).1 "locked" [FSEntry.file "x" 7],
   (c8_unreadable_directory "" [] 0).2.2.2 "root" "locked"
     [FSEntry.dir "locked" false [FSEntry.file "x" 7], FSEntry.file "a" 5]
     [FSEntry.file "x" 7] (List.mem_singleton.mpr rfl)⟩

/-- C4: An entry whose name starts with a dot is classified Reject whatever
the extension, size or other filters are, for files and directories alike: in
the code either the ignored-name check or the hidden check fires, and both
return without keeping the entry. -/
theorem c4_hidden_always_rejected (ext : String) (ignore_dirs : List String)
    (min_size : Nat) (e : FSEntry) (h : startsWithDot e.name = true) :
    classifyEntry ext ignore_dirs min_size e = Classification.reject := by
  rw [classifyEntry.eq_def]
  by_cases hc : ignore_dirs.contains e.name
  · rw [if_pos hc]
  · rw [if_neg hc, if_pos h]

theorem c4_hidden_always_rejected_witness :
    classifyEntry "txt" [] 0 (FSEntry.file ".a.txt" 500) = Classification.reject ∧
    classifyEntry "" [] 0 (FSEntry.dir ".git" true []) = Classification.reject :=
  ⟨c4_hidden_always_rejected "txt" [] 0 (FSEntry.file ".a.txt" 500) rfl,
   c4_hidden_always_rejected "" [] 0 (FSEntry.dir ".git" true []) rfl⟩

/-- C5 counterexample: the ignored-name rejection is not restricted to
directories.  The file `sub` passes every file rule (it is kept when the
ignored set is empty), yet with `sub` in the ignored set the very same file
entry is rejected — contradicting the claim that a file whose name is in the
ignored set is kept whenever it passes the file rules. -/
theorem c5_counterexample :
    classifyEntry "" ["sub"] 0 (FSEntry.file "sub" 100) = Classification.reject ∧
    classifyEntry "" [] 0 (FSEntry.file "sub" 100) =
      Classification.keptFile "sub" 100 :=
  ⟨rfl, rfl⟩

/-- C5 (amended): the ignored-name rejection applies to every entry
regardless of kind — any entry, file or directory, whose name is in the
ignored set is rejected before any other check is evaluated. -/
theorem c5_ignored_name_rejects_everything (ext : String) (ignore_dirs : List String)
    (min_size : Nat) (e : FSEntry) (h : ignore_dirs.contains e.name = true) :
    classifyEntry ext ignore_dirs min_size e = Classification.reject := by
  rw [classifyEntry.eq_def, if_pos h]

theorem c5_ignored_name_rejects_everything_witness :
    classifyEntry "" ["sub"] 0 (FSEntry.file "sub" 7) = Classification.reject ∧
    classifyEntry "" ["sub"] 0 (FSEntry.dir "sub" true []) = Classification.reject :=
  ⟨c5_ignored_name_rejects_everything "" ["sub"] 0 (FSEntry.file "sub" 7) rfl,
   c5_ignored_name_rejects_everything "" ["sub"] 0 (FSEntry.dir "sub" true []) rfl⟩

/-- C6 (spec-modelled: the maximum-size filter is absent from `src/`): in the
spec classifier a file whose size exceeds a configured maximum is rejected,
and with the unbounded default (`max_size = none`) the classifier coincides
with the classifier that has no maximum-size rule at all, so no file is ever
rejected by this rule. -/
theorem c6_max_size_rejects (min_size : Nat) (max_size : Option Nat) (ext : String)
    (ignore_dirs : List String) (pat : Option (String → Bool)) :
    (∀ (n : String) (s M : Nat), max_size = some M → M < s →
      classifySpec min_size max_size ext ignore_dirs pat (FSEntry.file n s) =
        Classification.reject) ∧
    (∀ e : FSEntry, classifySpec min_size none ext ignore_dirs pat e =
      classifySpecNoMax min_size ext ignore_dirs pat e) := by
  constructor
  · intro n s M hM hlt
    subst hM
    rw [classifySpec.eq_def]
    by_cases hd : startsWithDot (FSEntry.file n s).name
    · rw [if_pos hd]
    · rw [if_neg hd]
      dsimp only
      by_cases hmin : s < min_size
      · rw [if_pos hmin]
      · rw [if_neg hmin, if_pos (by simpa using hlt)]
  · intro e
    cases e with
    | dir n r es => rfl
    | file n s => rfl

theorem c6_max_size_rejects_witness :
    classifySpec 0 (some 10) "" [] none (FSEntry.file "big" 11) =
      Classification.reject ∧
    classifySpec 0 none "" [] none (FSEntry.file "big" 11) =
      classifySpecNoMax 0 "" [] none (FSEntry.file "big" 11) :=
  ⟨(c6_max_size_rejects 0 (some 10) "" [] none).1 "big" 11 10 rfl (by omega),
   (c6_max_size_rejects 0 none "" [] none).2 (FSEntry.file "big" 11)⟩

theorem buildDepthF_max_zero (ext : String) (ignore_dirs : List String) (min_size : Nat) :
    ∀ (fuel depth : Nat) (e : FSEntry),
    buildDepthF ext ignore_dirs min_size 0 fuel depth e =
      buildF ext ignore_dirs min_size fuel e := by
  intro fuel
  induction fuel with
  | zero => intro d e; rfl
  | succ f ih =>
      intro d e
      match e with
      | FSEntry.file n s => rfl
      | FSEntry.dir n false es => rfl
      | FSEntry.dir n true es =>
          simp only [buildDepthF, buildF]
          rw [if_pos (Or.inl trivial)]
          rw [List.map_congr_left fun x _ => ih (d + 1) x]

/-- C7 (spec-modelled: the depth limit is absent from `src/`): with a
configured maximum depth `N > 0`, a call at depth `d ≥ N` (in particular a
subdirectory at depth `N`) scans its direct files but recurses no further —
its result is built from the direct kept files alone; with maximum depth `0`
the depth-limited builder coincides with the unlimited builder at every
depth. -/
theorem c7_depth_semantics (ext : String) (ignore_dirs : List String) (min_size : Nat) :
    (∀ (N d : Nat) (nm : String) (es : List FSEntry), N ≠ 0 → N ≤ d →
      build_directory_tree_depth ext ignore_dirs min_size N d (FSEntry.dir nm true es) =
        (if 0 < (process_directory_entries es ext ignore_dirs min_size).1.length then
          some (TreeNode.directory nm
            ((process_directory_entries es ext ignore_dirs min_size).1.map
              fun p => TreeNode.file p.1 p.2)
            (process_directory_entries es ext ignore_dirs min_size).1.length
            ((process_directory_entries es ext ignore_dirs min_size).1.map Prod.snd).sum
            (process_directory_entries es ext ignore_dirs min_size).1.length
            ((process_directory_entries es ext ignore_dirs min_size).1.map Prod.snd).sum)
        else none, [])) ∧
    (∀ (d : Nat) (e : FSEntry),
      build_directory_tree_depth ext ignore_dirs min_size 0 d e =
        build_directory_tree ext ignore_dirs min_size e) := by
  constructor
  · intro N d nm es hN hNd
    have hcond : ¬(N = 0 ∨ d < N) := by omega
    rw [build_directory_tree_depth,
      show FSEntry.sz (FSEntry.dir nm true es) = FSEntry.szList es + 1 from by
        simp [FSEntry.sz]; omega]
    simp only [buildDepthF]
    rw [if_neg hcond]
    simp [keptOf]
  · intro d e
    rw [build_directory_tree_depth, build_directory_tree,
      buildDepthF_max_zero ext ignore_dirs min_size e.sz d e]

theorem c7_depth_semantics_witness :
    build_directory_tree_depth "" [] 0 1 1
      (FSEntry.dir "sub" true
        [FSEntry.file "a" 5, FSEntry.dir "deep" true [FSEntry.file "b" 6]]) =
      (some (TreeNode.directory "sub" [TreeNode.file "a" 5] 1 5 1 5), []) ∧
    build_directory_tree_depth "" [] 0 0 3
      (FSEntry.dir "sub" true
        [FSEntry.file "a" 5, FSEntry.dir "deep" true [FSEntry.file "b" 6]]) =
      build_directory_tree "" [] 0
        (FSEntry.dir "sub" true
          [FSEntry.file "a" 5, FSEntry.dir "deep" true [FSEntry.file "b" 6]]) :=
  ⟨by
    rw [(c7_depth_semantics "" [] 0).1 1 1 "sub"
      [FSEntry.file "a" 5, FSEntry.dir "deep" true [FSEntry.file "b" 6]]
      (by omega) (by omega)]
    rfl,
   (c7_depth_semantics "" [] 0).2 3
     (FSEntry.dir "sub" true
       [FSEntry.file "a" 5, FSEntry.dir "deep" true [FSEntry.file "b" 6]])⟩

/-- C3 falsified at a concrete failing input: building
`root/sub/a (10 bytes)` yields a root whose `total_size` is `10` (the sum of
all kept file sizes), yet after rendering the accumulated `total_bytes` is
`20` in the stats-only mode and `30` in the full mode — the renderers add
every visited directory's cumulative `total_size` (and, in full mode, each
file's size again), counting each file's bytes once per enclosing directory
rather than exactly once.  `total_files`, by contrast, is aggregated
correctly (here `1`), which shows the per-once aggregation was the intent. -/
theorem c3_total_bytes_overcounted :
    (build_directory_tree "" [] 0
      (FSEntry.dir "root" true [FSEntry.dir "sub" true [FSEntry.file "a" 10]])).1 =
      some (TreeNode.directory "root"
        [TreeNode.directory "sub" [TreeNode.file "a" 10] 1 10 1 10] 1 10 0 0) ∧
    TreeNode.totalSize (TreeNode.directory "root"
      [TreeNode.directory "sub" [TreeNode.file "a" 10] 1 10 1 10] 1 10 0 0) = 10 ∧
    print_tree (TreeNode.directory "root"
      [TreeNode.directory "sub" [TreeNode.file "a" 10] 1 10 1 10] 1 10 0 0)
      ⟨0, 0, 0⟩ = ⟨1, 2, 20⟩ ∧
    print_tree_file (TreeNode.directory "root"
      [TreeNode.directory "sub" [TreeNode.file "a" 10] 1 10 1 10] 1 10 0 0)
      ⟨0, 0, 0⟩ = ⟨1, 2, 30⟩ :=
  ⟨rfl, rfl, rfl, rfl⟩

/-- C10: `parse_size` is insensitive to where digits and unit letters sit in
the input: the result is computed solely from the digit-and-dot characters in
order (the numeric value) and the remaining non-whitespace characters in
order (the unit) of the trimmed, lowercased input; in particular `"k10"`,
with the unit letter before the digits, parses to `10 * 1024` just as
`"10k"` does. -/
theorem c10_parse_size_position_insensitive :
    (∀ s : String,
      parse_size s =
        (let l := (trimChars s.data).map Char.toLower
         match parseDecimal (l.filter isNumChar) with
         | none => Except.error ("Invalid numeric value in size: " ++ String.mk l)
         | some v =>
             match unitMultiplier
                 (String.mk (l.filter fun c => !(isNumChar c) && !c.isWhitespace)) with
             | none => Except.error ("Unknown size unit: " ++
                 String.mk (l.filter fun c => !(isNumChar c) && !c.isWhitespace))
             | some mult => Except.ok (min (v.1 * mult / 10 ^ v.2) (2 ^ 64 - 1)))) ∧
    parse_size "k10" = Except.ok 10240 ∧ parse_size "10k" = Except.ok 10240 :=
  ⟨fun _ => rfl, rfl, rfl⟩

theorem digitChar_isDigit {d : Nat} (h : d < 10) : (digitChar d).isDigit = true := by
  interval_cases d <;> decide

theorem digitChar_toLower {d : Nat} (h : d < 10) :
    Char.toLower (digitChar d) = digitChar d := by
  interval_cases d <;> decide

theorem digitChar_not_ws {d : Nat} (h : d < 10) :
    (digitChar d).isWhitespace = false := by
  interval_cases d <;> decide

theorem digitChar_isNumChar {d : Nat} (h : d < 10) :
    isNumChar (digitChar d) = true := by
  interval_cases d <;> decide

theorem digitChar_toNat {d : Nat} (h : d < 10) : (digitChar d).toNat - 48 = d := by
  interval_cases d <;> decide

theorem natDigitsGo_zero (fuel : Nat) (acc : List Char) :
    natDigitsGo fuel 0 acc = acc := by
  cases fuel <;> rfl

theorem natDigitsGo_append (fuel : Nat) :
    ∀ (n : Nat) (acc : List Char),
    natDigitsGo fuel n acc = natDigitsGo fuel n [] ++ acc := by
  induction fuel with
  | zero => intro n acc; rfl
  | succ f ih =>
      intro n acc
      cases n with
      | zero => rfl
      | succ m =>
          show natDigitsGo f ((m + 1) / 10) (digitChar ((m + 1) % 10) :: acc) =
            natDigitsGo f ((m + 1) / 10) [digitChar ((m + 1) % 10)] ++ acc
          rw [ih ((m + 1) / 10) (digitChar ((m + 1) % 10) :: acc),
            ih ((m + 1) / 10) [digitChar ((m + 1) % 10)]]
          simp

theorem mem_natDigitsGo (fuel : Nat) :
    ∀ (n : Nat) (acc : List Char) (c : Char), c ∈ natDigitsGo fuel n acc →
    c ∈ acc ∨ ∃ d, d < 10 ∧ c = digitChar d := by
  induction fuel with
  | zero => intro n acc c h; exact Or.inl h
  | succ f ih =>
      intro n acc c h
      cases n with
      | zero => exact Or.inl h
      | succ m =>
          rcases ih ((m + 1) / 10) (digitChar ((m + 1) % 10) :: acc) c h with h1 | h1
          · rcases List.mem_cons.mp h1 with h2 | h2
            · exact Or.inr ⟨(m + 1) % 10, Nat.mod_lt _ (by omega), h2⟩
            · exact Or.inl h2
          · exact Or.inr h1

theorem foldl_digits (l : List Char) :
    ∀ a : Nat, l.foldl (fun a c => 10 * a + (c.toNat - 48)) a =
      a * 10 ^ l.length + digitsToNat l := by
  induction l with
  | nil => intro a; simp [digitsToNat]
  | cons c cs ih =>
      intro a
      show cs.foldl _ (10 * a + (c.toNat - 48)) = _
      rw [ih (10 * a + (c.toNat - 48))]
      have hc : digitsToNat (c :: cs) = (c.toNat - 48) * 10 ^ cs.length + digitsToNat cs := by
        show cs.foldl _ (10 * 0 + (c.toNat - 48)) = _
        rw [ih (10 * 0 + (c.toNat - 48))]
        ring_nf
      rw [hc]
      simp [List.length_cons]
      ring

theorem digitsToNat_append (xs ys : List Char) :
    digitsToNat (xs ++ ys) = digitsToNat xs * 10 ^ ys.length + digitsToNat ys := by
  show (xs ++ ys).foldl _ 0 = _
  rw [List.foldl_append, foldl_digits ys]
  rfl

theorem natDigitsGo_correct :
    ∀ (fuel n : Nat), 0 < n → n ≤ fuel →
    digitsToNat (natDigitsGo fuel n []) = n := by
  intro fuel
  induction fuel with
  | zero => intro n h1 h2; omega
  | succ f ih =>
      intro n h1 h2
      obtain ⟨m, rfl⟩ : ∃ m, n = m + 1 := ⟨n - 1, by omega⟩
      show digitsToNat (natDigitsGo f ((m + 1) / 10) [digitChar ((m + 1) % 10)]) = m + 1
      rw [natDigitsGo_append]
      rw [digitsToNat_append]
      have hmod : (m + 1) % 10 < 10 := Nat.mod_lt _ (by omega)
      have hdig : digitsToNat [digitChar ((m + 1) % 10)] = (m + 1) % 10 := by
        show 10 * 0 + ((digitChar ((m + 1) % 10)).toNat - 48) = _
        rw [digitChar_toNat hmod]
        omega
      by_cases hq : (m + 1) / 10 = 0
      · rw [hq, natDigitsGo_zero]
        simp [digitsToNat] at hdig ⊢
        omega
      · have hqf : (m + 1) / 10 ≤ f := by
          have := Nat.div_lt_self (show 0 < m + 1 by omega) (show 1 < 10 by omega)
          omega
        rw [ih _ (by omega) hqf, hdig]
        simp
        omega

theorem digitsToNat_natDigits (n : Nat) : digitsToNat (natDigits n) = n := by
  rw [natDigits]
  by_cases h : n = 0
  · rw [if_pos h, h]; rfl
  · rw [if_neg h]
    exact natDigitsGo_correct n n (by omega) (le_refl n)

theorem natDigits_ne_nil (n : Nat) : natDigits n ≠ [] := by
  rw [natDigits]
  by_cases h : n = 0
  · rw [if_pos h]; simp
  · rw [if_neg h]
    obtain ⟨m, rfl⟩ : ∃ m, n = m + 1 := ⟨n - 1, by omega⟩
    show natDigitsGo m ((m + 1) / 10) [digitChar ((m + 1) % 10)] ≠ []
    rw [natDigitsGo_append]
    simp

theorem mem_natDigits {n : Nat} {c : Char} (h : c ∈ natDigits n) :
    ∃ d, d < 10 ∧ c = digitChar d := by
  rw [natDigits] at h
  by_cases h0 : n = 0
  · rw [if_pos h0] at h
    rcases List.mem_singleton.mp h with rfl
    exact ⟨0, by omega, rfl⟩
  · rw [if_neg h0] at h
    rcases mem_natDigitsGo n n [] c h with h1 | h1
    · cases h1
    · exact h1

theorem natDigits_small {n : Nat} (h1 : 0 < n) (h2 : n < 10) :
    ∀ fuel, n ≤ fuel → natDigitsGo fuel n [] = [digitChar n] := by
  intro fuel hf
  obtain ⟨f, rfl⟩ : ∃ f, fuel = f + 1 := ⟨fuel - 1, by omega⟩
  obtain ⟨m, rfl⟩ : ∃ m, n = m + 1 := ⟨n - 1, by omega⟩
  show natDigitsGo f ((m + 1) / 10) [digitChar ((m + 1) % 10)] = _
  rw [Nat.div_eq_of_lt h2, natDigitsGo_zero, Nat.mod_eq_of_lt h2]

theorem length_natDigits_lt_ten {n : Nat} (h : n < 10) :
    (natDigits n).length = 1 := by
  rw [natDigits]
  by_cases h0 : n = 0
  · rw [if_pos h0]; rfl
  · rw [if_neg h0, natDigits_small (by omega) h n (le_refl n)]
    rfl

theorem length_natDigits_two {n : Nat} (h1 : 10 ≤ n) (h2 : n < 100) :
    (natDigits n).length = 2 := by
  rw [natDigits, if_neg (by omega)]
  obtain ⟨m, rfl⟩ : ∃ m, n = m + 1 := ⟨n - 1, by omega⟩
  show (natDigitsGo m ((m + 1) / 10) [digitChar ((m + 1) % 10)]).length = 2
  rw [natDigitsGo_append]
  have hq1 : 0 < (m + 1) / 10 := Nat.div_pos h1 (by omega)
  have hq2 : (m + 1) / 10 < 10 := Nat.div_lt_of_lt_mul (by omega)
  rw [natDigits_small hq1 hq2 m (by omega)]
  rfl

theorem mem_pad2 {m : Nat} {c : Char} (h : c ∈ pad2 m) :
    ∃ d, d < 10 ∧ c = digitChar d := by
  rw [pad2] at h
  by_cases hm : m < 10
  · rw [if_pos hm] at h
    rcases List.mem_cons.mp h with rfl | h1
    · exact ⟨0, by omega, rfl⟩
    · exact mem_natDigits h1
  · rw [if_neg hm] at h
    exact mem_natDigits h

theorem digitsToNat_pad2 (m : Nat) : digitsToNat (pad2 m) = m := by
  rw [pad2]
  by_cases hm : m < 10
  · rw [if_pos hm]
    show List.foldl _ (10 * 0 + ('0'.toNat - 48)) (natDigits m) = m
    have : (10 * 0 + ('0'.toNat - 48)) = 0 := by decide
    rw [this]
    exact digitsToNat_natDigits m
  · rw [if_neg hm]
    exact digitsToNat_natDigits m

theorem length_pad2 {m : Nat} (h : m < 100) : (pad2 m).length = 2 := by
  rw [pad2]
  by_cases hm : m < 10
  · rw [if_pos hm]
    rw [List.length_cons, length_natDigits_lt_ten hm]
  · rw [if_neg hm]
    exact length_natDigits_two (by omega) h

theorem trimChars_eq_self {l : List Char}
    (h1 : ∀ c, l.head? = some c → c.isWhitespace = false)
    (h2 : ∀ c, l.getLast? = some c → c.isWhitespace = false) :
    trimChars l = l := by
  cases l with
  | nil => rfl
  | cons c t =>
      have hc : c.isWhitespace = false := h1 c rfl
      have hrev : (c :: t).reverse ≠ [] := by simp
      obtain ⟨z, r, hzr⟩ := List.exists_cons_of_ne_nil hrev
      have hz : z.isWhitespace = false := by
        refine h2 z ?_
        rw [← List.head?_reverse, hzr]
        rfl
      rw [trimChars]
      rw [List.dropWhile_cons, if_neg (by simp [hc])]
      rw [hzr, List.dropWhile_cons, if_neg (by simp [hz]), ← hzr,
        List.reverse_reverse]

theorem map_toLower_eq_self {l : List Char}
    (h : ∀ c ∈ l, c = '.' ∨ ∃ d, d < 10 ∧ c = digitChar d) :
    l.map Char.toLower = l := by
  have : l.map Char.toLower = l.map id := by
    refine List.map_congr_left fun c hc => ?_
    rcases h c hc with rfl | ⟨d, hd, rfl⟩
    · decide
    · exact digitChar_toLower hd
  rw [this, List.map_id]

theorem filter_isNumChar_eq_self {l : List Char}
    (h : ∀ c ∈ l, c = '.' ∨ ∃ d, d < 10 ∧ c = digitChar d) :
    l.filter isNumChar = l := by
  rw [List.filter_eq_self]
  intro c hc
  rcases h c hc with rfl | ⟨d, hd, rfl⟩
  · decide
  · exact digitChar_isNumChar hd

theorem filter_unit_eq_nil {l : List Char}
    (h : ∀ c ∈ l, c = '.' ∨ ∃ d, d < 10 ∧ c = digitChar d) :
    (l.filter fun c => !(isNumChar c) && !c.isWhitespace) = [] := by
  rw [List.filter_eq_nil_iff]
  intro c hc
  rcases h c hc with rfl | ⟨d, hd, rfl⟩
  · decide
  · simp [digitChar_isNumChar hd]

theorem takeWhile_append_stop {p : Char → Bool} {xs : List Char} {y : Char}
    (ys : List Char) (hxs : ∀ x ∈ xs, p x = true) (hy : p y = false) :
    (xs ++ y :: ys).takeWhile p = xs := by
  induction xs with
  | nil => simp [List.takeWhile_cons, hy]
  | cons x t ih =>
      have hx : p x = true := hxs x (List.mem_cons_self _ _)
      rw [List.cons_append, List.takeWhile_cons, if_pos hx]
      rw [ih fun a ha => hxs a (List.mem_cons_of_mem _ ha)]

theorem dl_chars (c : Nat) :
    ∀ ch ∈ natDigits (c / 100) ++ '.' :: pad2 (c % 100),
      ch = '.' ∨ ∃ d, d < 10 ∧ ch = digitChar d := by
  intro ch hch
  rcases List.mem_append.mp hch with h | h
  · exact Or.inr (mem_natDigits h)
  · rcases List.mem_cons.mp h with rfl | h1
    · exact Or.inl rfl
    · exact Or.inr (mem_pad2 h1)

theorem parseDecimal_dl (c : Nat) :
    parseDecimal (natDigits (c / 100) ++ '.' :: pad2 (c % 100)) = some (c, 2) := by
  rw [parseDecimal]
  have htake : (natDigits (c / 100) ++ '.' :: pad2 (c % 100)).takeWhile Char.isDigit =
      natDigits (c / 100) := by
    refine takeWhile_append_stop _ (fun x hx => ?_) (by decide)
    obtain ⟨d, hd, rfl⟩ := mem_natDigits hx
    exact digitChar_isDigit hd
  rw [htake]
  rw [show (natDigits (c / 100) ++ '.' :: pad2 (c % 100)).drop
      (natDigits (c / 100)).length = '.' :: pad2 (c % 100) from List.drop_left _ _]
  show (if (pad2 (c % 100)).all Char.isDigit = true then
      if ((natDigits (c / 100)).isEmpty && (pad2 (c % 100)).isEmpty) = true then none
      else some (digitsToNat (natDigits (c / 100)) * 10 ^ (pad2 (c % 100)).length +
        digitsToNat (pad2 (c % 100)), (pad2 (c % 100)).length)
    else none) = some (c, 2)
  rw [if_pos ?hall]
  case hall =>
    rw [List.all_eq_true]
    intro x hx
    obtain ⟨d, hd, rfl⟩ := mem_pad2 hx
    exact digitChar_isDigit hd
  rw [if_neg ?hne]
  case hne =>
    simp [List.isEmpty_iff, natDigits_ne_nil]
  rw [digitsToNat_natDigits, digitsToNat_pad2, length_pad2 (Nat.mod_lt _ (by omega))]
  congr 1
  rw [Prod.mk.injEq]
  constructor
  · have := Nat.div_add_mod c 100
    simp
    omega
  · rfl

theorem fmt2_assoc (b u : Nat) (suffix : List Char) :
    fmt2 b u suffix =
      (natDigits (roundHalfEven (100 * b) u / 100) ++
        '.' :: pad2 (roundHalfEven (100 * b) u % 100)) ++ suffix := by
  simp [fmt2]

theorem parse_fmt2_eq (c mult : Nat) (U1 U2 L1 L2 : Char)
    (hU1 : Char.toLower U1 = L1) (hU2 : Char.toLower U2 = L2)
    (hL1n : isNumChar L1 = false) (hL2n : isNumChar L2 = false)
    (hL1w : L1.isWhitespace = false) (hL2w : L2.isWhitespace = false)
    (hU2w : U2.isWhitespace = false)
    (hmult : unitMultiplier (String.mk [L1, L2]) = some mult) :
    parse_size (String.mk
      ((natDigits (c / 100) ++ '.' :: pad2 (c % 100)) ++ [' ', U1, U2])) =
      Except.ok (min (c * mult / 100) (2 ^ 64 - 1)) := by
  have hdl := dl_chars c
  have htrim : trimChars ((natDigits (c / 100) ++ '.' :: pad2 (c % 100)) ++ [' ', U1, U2]) =
      (natDigits (c / 100) ++ '.' :: pad2 (c % 100)) ++ [' ', U1, U2] := by
    refine trimChars_eq_self ?_ ?_
    · intro ch hch
      obtain ⟨hd, tl, hnd⟩ := List.exists_cons_of_ne_nil (natDigits_ne_nil (c / 100))
      rw [hnd] at hch
      rw [List.cons_append, List.cons_append, List.head?_cons] at hch
      injection hch with hch
      subst hch
      obtain ⟨d, hdlt, rfl⟩ := mem_natDigits (hnd ▸ List.mem_cons_self hd tl)
      exact digitChar_not_ws hdlt
    · intro ch hch
      rw [show (natDigits (c / 100) ++ '.' :: pad2 (c % 100)) ++ [' ', U1, U2] =
        ((natDigits (c / 100) ++ '.' :: pad2 (c % 100)) ++ [' ', U1]) ++ [U2] from by
          simp, List.getLast?_concat] at hch
      injection hch with hch
      subst hch
      exact hU2w
  have hlower : ((natDigits (c / 100) ++ '.' :: pad2 (c % 100)) ++ [' ', U1, U2]).map
      Char.toLower =
      (natDigits (c / 100) ++ '.' :: pad2 (c % 100)) ++ [' ', L1, L2] := by
    rw [List.map_append, map_toLower_eq_self hdl]
    simp [hU1, hU2]
  have hnum : (((natDigits (c / 100) ++ '.' :: pad2 (c % 100)) ++ [' ', L1, L2]).filter
      isNumChar) = natDigits (c / 100) ++ '.' :: pad2 (c % 100) := by
    rw [List.filter_append, filter_isNumChar_eq_self hdl]
    rw [show ([' ', L1, L2].filter isNumChar) = [] from by
      simp [List.filter_cons, hL1n, hL2n]; decide]
    simp
  have hunit : (((natDigits (c / 100) ++ '.' :: pad2 (c % 100)) ++ [' ', L1, L2]).filter
      fun ch => !(isNumChar ch) && !ch.isWhitespace) = [L1, L2] := by
    rw [List.filter_append, filter_unit_eq_nil hdl]
    simp [List.filter_cons, hL1n, hL2n, hL1w, hL2w]
  rw [parse_size]
  rw [show (String.mk ((natDigits (c / 100) ++ '.' :: pad2 (c % 100)) ++ [' ', U1, U2])).data =
    (natDigits (c / 100) ++ '.' :: pad2 (c % 100)) ++ [' ', U1, U2] from rfl]
  rw [htrim, hlower, hnum, parseDecimal_dl, hunit, hmult]
  rfl

theorem takeWhile_all {p : Char → Bool} {l : List Char} (h : ∀ x ∈ l, p x = true) :
    l.takeWhile p = l := by
  induction l with
  | nil => rfl
  | cons x t ih =>
      rw [List.takeWhile_cons, if_pos (h x (List.mem_cons_self _ _))]
      rw [ih fun a ha => h a (List.mem_cons_of_mem _ ha)]

theorem parse_bytes_eq (n : Nat) :
    parse_size (String.mk (natDigits n ++ [' ', 'b', 'y', 't', 'e', 's'])) =
      Except.ok (min n (2 ^ 64 - 1)) := by
  have hdig : ∀ ch ∈ natDigits n, ∃ d, d < 10 ∧ ch = digitChar d :=
    fun ch hch => mem_natDigits hch
  have htrim : trimChars (natDigits n ++ [' ', 'b', 'y', 't', 'e', 's']) =
      natDigits n ++ [' ', 'b', 'y', 't', 'e', 's'] := by
    refine trimChars_eq_self ?_ ?_
    · intro ch hch
      obtain ⟨hd, tl, hnd⟩ := List.exists_cons_of_ne_nil (natDigits_ne_nil n)
      rw [hnd, List.cons_append, List.head?_cons] at hch
      injection hch with hch
      subst hch
      obtain ⟨d, hdlt, rfl⟩ := mem_natDigits (hnd ▸ List.mem_cons_self hd tl)
      exact digitChar_not_ws hdlt
    · intro ch hch
      rw [show natDigits n ++ [' ', 'b', 'y', 't', 'e', 's'] =
        (natDigits n ++ [' ', 'b', 'y', 't', 'e']) ++ ['s'] from by simp,
        List.getLast?_concat] at hch
      injection hch with hch
      subst hch
      decide
  have hlower : (natDigits n ++ [' ', 'b', 'y', 't', 'e', 's']).map Char.toLower =
      natDigits n ++ [' ', 'b', 'y', 't', 'e', 's'] := by
    rw [List.map_append, map_toLower_eq_self fun ch hch => Or.inr (hdig ch hch)]
    rfl
  have hnum : ((natDigits n ++ [' ', 'b', 'y', 't', 'e', 's']).filter isNumChar) =
      natDigits n := by
    rw [List.filter_append, filter_isNumChar_eq_self fun ch hch => Or.inr (hdig ch hch)]
    rw [show ([' ', 'b', 'y', 't', 'e', 's'].filter isNumChar) = [] from by decide]
    simp
  have hunit : ((natDigits n ++ [' ', 'b', 'y', 't', 'e', 's']).filter
      fun ch => !(isNumChar ch) && !ch.isWhitespace) = ['b', 'y', 't', 'e', 's'] := by
    rw [List.filter_append, filter_unit_eq_nil fun ch hch => Or.inr (hdig ch hch)]
    rfl
  have hparse : parseDecimal (natDigits n) = some (n, 0) := by
    rw [parseDecimal]
    have htake : (natDigits n).takeWhile Char.isDigit = natDigits n := by
      refine takeWhile_all fun x hx => ?_
      obtain ⟨d, hd, rfl⟩ := mem_natDigits hx
      exact digitChar_isDigit hd
    rw [htake, List.drop_length]
    rw [if_neg (by simp [List.isEmpty_iff, natDigits_ne_nil])]
    rw [digitsToNat_natDigits]
  rw [parse_size]
  rw [show (String.mk (natDigits n ++ [' ', 'b', 'y', 't', 'e', 's'])).data =
    natDigits n ++ [' ', 'b', 'y', 't', 'e', 's'] from rfl]
  rw [htrim, hlower, hnum, hparse, hunit]
  rw [show unitMultiplier (String.mk ['b', 'y', 't', 'e', 's']) = some 1 from rfl]
  show Except.ok (min (n * 1 / 10 ^ 0) (2 ^ 64 - 1)) = _
  rw [pow_zero, Nat.mul_one, Nat.div_one]

theorem roundHalfEven_mul_bounds (n u : Nat) (hu : 0 < u) :
    roundHalfEven (100 * n) u * u / 100 ≤ n + u / 100 ∧
    n ≤ roundHalfEven (100 * n) u * u / 100 + u / 100 + 1 := by
  have hc : roundHalfEven (100 * n) u = 100 * n / u ∨
      roundHalfEven (100 * n) u = 100 * n / u + 1 := by
    rw [roundHalfEven]
    split_ifs <;> simp
  obtain ⟨A, hA1, hA2, hB⟩ : ∃ A, A ≤ 100 * n ∧ 100 * n < A + u ∧
      (roundHalfEven (100 * n) u * u = A ∨ roundHalfEven (100 * n) u * u = A + u) := by
    have hdm := Nat.div_add_mod (100 * n) u
    have hmod := Nat.mod_lt (100 * n) hu
    refine ⟨u * (100 * n / u), by omega, by omega, ?_⟩
    rcases hc with h | h <;> rw [h]
    · exact Or.inl (Nat.mul_comm _ _)
    · exact Or.inr (by ring)
  have hup : roundHalfEven (100 * n) u * u ≤ 100 * n + u := by omega
  have hlo : 100 * n ≤ roundHalfEven (100 * n) u * u + u := by omega
  constructor <;> omega

/-- C9: For a byte count that is an exact multiple of KB (hence also for
exact MB and GB multiples), `parse_size` applied to `format_size` succeeds,
and the result is within rounding tolerance of the original: at most one
hundredth of the formatting unit plus one byte away, the slack the
two-decimal display and the final truncating cast can introduce.  Doubles
are modelled by exact decimal arithmetic, which agrees with the `f64`
computation up to the displayed rounding captured by this tolerance. -/
theorem c9_format_parse_round_trip (n : Nat) (h64 : n < 2 ^ 64) (hdvd : 1024 ∣ n) :
    ∃ m : Nat, parse_size (format_size n) = Except.ok m ∧
      m ≤ n + formatUnit n / 100 ∧ n ≤ m + formatUnit n / 100 + 1 := by
  rw [format_size, formatUnit]
  split_ifs with hg hm hk
  · rw [fmt2_assoc,
      parse_fmt2_eq (roundHalfEven (100 * n) sizeGB) sizeGB 'G' 'B' 'g' 'b'
        (by decide) (by decide) (by decide) (by decide) (by decide) (by decide)
        (by decide) rfl]
    have hb := roundHalfEven_mul_bounds n sizeGB (by norm_num [sizeGB, sizeMB, sizeKB])
    exact ⟨_, rfl, by omega, by omega⟩
  · rw [fmt2_assoc,
      parse_fmt2_eq (roundHalfEven (100 * n) sizeMB) sizeMB 'M' 'B' 'm' 'b'
        (by decide) (by decide) (by decide) (by decide) (by decide) (by decide)
        (by decide) rfl]
    have hb := roundHalfEven_mul_bounds n sizeMB (by norm_num [sizeMB, sizeKB])
    exact ⟨_, rfl, by omega, by omega⟩
  · rw [fmt2_assoc,
      parse_fmt2_eq (roundHalfEven (100 * n) sizeKB) sizeKB 'K' 'B' 'k' 'b'
        (by decide) (by decide) (by decide) (by decide) (by decide) (by decide)
        (by decide) rfl]
    have hb := roundHalfEven_mul_bounds n sizeKB (by norm_num [sizeKB])
    exact ⟨_, rfl, by omega, by omega⟩
  · rw [parse_bytes_eq n]
    exact ⟨_, rfl, by omega, by omega⟩

theorem c9_format_parse_round_trip_witness :
    3145728 < 2 ^ 64 ∧ 1024 ∣ 3145728 ∧
    ∃ m : Nat, parse_size (format_size 3145728) = Except.ok m ∧
      m ≤ 3145728 + formatUnit 3145728 / 100 ∧
      3145728 ≤ m + formatUnit 3145728 / 100 + 1 :=
  ⟨by norm_num, by norm_num,
   c9_format_parse_round_trip 3145728 (by norm_num) (by norm_num)⟩
